import Mathlib

/-!
# A verification development for the composable codec core

This file gives a shallow embedding of the codec core: the
Encoder/Decoder abstraction with its fixed-size vs. variable-size
distinction, the tuple combinator (`tuple.ts`), the hidden-prefix
combinator, and the arbitrary-base string codec instantiated at
base-58 (`base58.ts`).

Byte buffers are `List Nat`; a JavaScript runtime value is the
dynamic type `Value`.  An encoder's `write` returns the final buffer
together with either the new offset or a thrown error, mirroring the
in-place mutation plus exception semantics of the source: on a thrown
error the returned buffer is whatever had been written so far.
-/

/-- A dynamic JavaScript runtime value as it flows through codecs:
`undefined` is `undefined`, `arr` is an array. -/
inductive Value where
  | undefined
  | nat (n : Nat)
  | str (s : String)
  | arr (elems : List Value)

/-- Typed codec failures carrying structured context. -/
inductive CodecError where
  /-- The tuple item-count mismatch: reports the codec description, the
  expected item count and the actual element count of the value
  (`none` when the value has no length, i.e. is not an array). -/
  | invalidNumberOfItems (codecDescription : String) (expected : Nat) (actual : Option Nat)
  /-- Base-X: the input string contains a character outside the
  configured alphabet; reports the offending character and its position. -/
  | invalidBaseString (value : String) (char : Char) (index : Nat)
deriving DecidableEq

/-- The size descriptor of an encoder or decoder: either a fixed size,
known without inspecting the value, or a variable size with an optional
maximum bound. -/
inductive CodecSize where
  | fixed (size : Nat)
  | varSize (maxSize : Option Nat)
deriving DecidableEq

/-- `getFixedSize`: the exact size of a fixed-size codec, `null` for a
variable-size one. -/
def fixedSizeOf : CodecSize → Option Nat
  | .fixed n => some n
  | .varSize _ => none

/-- `getMaxSize`: the fixed size of a fixed-size codec, otherwise its
declared `maxSize` bound if any. -/
def maxSizeOf : CodecSize → Option Nat
  | .fixed n => some n
  | .varSize m => m

/-- The reducer of `sumCodecSizes`: `null` absorbs, otherwise add. -/
def sumCodecSizesStep (all one : Option Nat) : Option Nat :=
  match all, one with
  | some a, some b => some (a + b)
  | _, _ => none

/-- Modelled from the spec: `sumCodecSizes` used by the size algebra of
§4.1 (the helper lives in `utils.ts`, outside the given sources) — if
every child reports a size, sum them; if any child reports `null`, the
result is `null`. -/
def sumCodecSizes (sizes : List (Option Nat)) : Option Nat :=
  sizes.foldl sumCodecSizesStep (some 0)

/-- An encoder: a size descriptor, a per-value size function (consulted
only for variable-size encoders) and a `write(value, bytes, offset)`
operation returning the mutated buffer and the new offset, or the
buffer as mutated so far together with a thrown error. -/
structure Encoder where
  size : CodecSize
  getSizeFromValue : Value → Nat
  write : Value → List Nat → Nat → List Nat × Except CodecError Nat

/-- A decoder: a size descriptor and a `read(bytes, offset)` operation
returning the decoded value and the new offset, or a thrown error. -/
structure Decoder where
  size : CodecSize
  read : List Nat → Nat → Except CodecError (Value × Nat)

/-- Modelled from the spec: `getEncodedSize(value, encoder)` of
codecs-core — the fixed size when the encoder is fixed-size, otherwise
the encoder's per-value size function applied to the value. -/
def getEncodedSize (value : Value) (encoder : Encoder) : Nat :=
  match encoder.size with
  | .fixed n => n
  | .varSize _ => encoder.getSizeFromValue value

/-- The JavaScript `.length` property: `some` for arrays, `none`
(`undefined`) otherwise. -/
def Value.jsLength : Value → Option Nat
  | .arr elems => some elems.length
  | _ => none

/-- JavaScript indexing `value[i]`: the element for an in-range array
index, `undefined` otherwise. -/
def Value.jsIndex : Value → Nat → Value
  | .arr elems, i => elems.getD i .undefined
  | _, _ => .undefined

/-- The element list of an array value, `[]` otherwise. -/
def Value.jsElems : Value → List Value
  | .arr elems => elems
  | _ => []

/-- Modelled from the spec: `assertValidNumberOfItemsForCodec` from
`assertions.ts` (outside the given sources) — validate that the number
of elements in the input value equals the number of item codecs,
failing with the item-count-mismatch condition reporting expected vs.
actual counts otherwise. -/
def assertValidNumberOfItemsForCodec (codecDescription : String) (expected : Nat)
    (actual : Option Nat) : Except CodecError Unit :=
  if actual = some expected then .ok ()
  else .error (.invalidNumberOfItems codecDescription expected actual)

/-- The item loop of the tuple `write`:
`items.forEach((item, index) => { offset = item.write(value[index], bytes, offset); })`.
The index is represented positionally: at step `index` the head of
`vals` is `value[index]` (out-of-range JavaScript indexing yields
`undefined`, hence `headD .undefined`), and a thrown error stops the loop,
returning the buffer as mutated so far. -/
def writeItems : List Encoder → List Value → List Nat → Nat → List Nat × Except CodecError Nat
  | [], _, bytes, offset => (bytes, .ok offset)
  | item :: rest, vals, bytes, offset =>
    match item.write (vals.headD .undefined) bytes offset with
    | (bytes', .ok offset') => writeItems rest vals.tail bytes' offset'
    | (bytes', .error e) => (bytes', .error e)

/-- The size-from-value loop of the tuple encoder:
`items.map((item, index) => getEncodedSize(value[index], item)).reduce((all, one) => all + one, 0)`,
again with the index represented positionally. -/
def itemSizes : List Encoder → List Value → Nat
  | [], _ => 0
  | item :: rest, vals => getEncodedSize (vals.headD .undefined) item + itemSizes rest vals.tail

/-- `getTupleEncoder` from `tuple.ts`: sums the items' fixed sizes and
max sizes to build its own size descriptor, asserts the value's element
count before writing any byte, then writes each item in order, each at
the offset returned by the previous item's write. -/
def getTupleEncoder (items : List Encoder) : Encoder :=
  let fixedSize := sumCodecSizes (items.map fun item => fixedSizeOf item.size)
  let maxSize := sumCodecSizes (items.map fun item => maxSizeOf item.size)
  { size :=
      match fixedSize with
      | some n => .fixed n
      | none => .varSize maxSize
    getSizeFromValue := fun value => itemSizes items value.jsElems
    write := fun value bytes offset =>
      match assertValidNumberOfItemsForCodec "tuple" items.length value.jsLength with
      | .error e => (bytes, .error e)
      | .ok _ => writeItems items value.jsElems bytes offset }

/-- The item loop of the tuple `read`: read the items in declaration
order, each starting at the offset returned by the previous item's
read, pushing results positionally. -/
def readItems : List Decoder → List Nat → Nat → Except CodecError (List Value × Nat)
  | [], _, offset => .ok ([], offset)
  | item :: rest, bytes, offset => do
    let (newValue, newOffset) ← item.read bytes offset
    let (values, finalOffset) ← readItems rest bytes newOffset
    .ok (newValue :: values, finalOffset)

/-- `getTupleDecoder` from `tuple.ts`: same size algebra as the
encoder; `read` accumulates one decoded value per item decoder with no
element-count check. -/
def getTupleDecoder (items : List Decoder) : Decoder :=
  let fixedSize := sumCodecSizes (items.map fun item => fixedSizeOf item.size)
  let maxSize := sumCodecSizes (items.map fun item => maxSizeOf item.size)
  { size :=
      match fixedSize with
      | some n => .fixed n
      | none => .varSize maxSize
    read := fun bytes offset => do
      let (values, finalOffset) ← readItems items bytes offset
      .ok (Value.arr values, finalOffset) }

/-- Modelled from the spec: `transformEncoder` of codecs-core (§4.2) —
adapt an encoder to a different logical value type via a pure mapping
function applied before write, without altering byte-level size or
behavior. -/
def transformEncoder (encoder : Encoder) (unmap : Value → Value) : Encoder :=
  { size := encoder.size
    getSizeFromValue := fun value => getEncodedSize (unmap value) encoder
    write := fun value bytes offset => encoder.write (unmap value) bytes offset }

/-- Modelled from the spec: `transformDecoder` of codecs-core (§4.2) —
adapt a decoder via a pure mapping function applied after read. -/
def transformDecoder (decoder : Decoder) (map : Value → Value) : Decoder :=
  { size := decoder.size
    read := fun bytes offset => do
      let (value, newOffset) ← decoder.read bytes offset
      .ok (map value, newOffset) }

/-- `getHiddenPrefixEncoder`: delegate to the tuple encoder over
the prefix encoders followed by the main encoder, synthesizing the
tuple value `[undefined, ..., undefined, value]` (one `undefined` per
prefix encoder) before delegating. -/
def getHiddenPrefixEncoder (encoder : Encoder) (prefixedEncoders : List Encoder) : Encoder :=
  transformEncoder
    (getTupleEncoder (prefixedEncoders ++ [encoder]))
    (fun value => .arr (prefixedEncoders.map (fun _ => Value.undefined) ++ [value]))

/-- `getHiddenPrefixDecoder`: delegate to the tuple decoder over the
prefix decoders followed by the main decoder, then project out only the
last element (`tuple[tuple.length - 1]`). -/
def getHiddenPrefixDecoder (decoder : Decoder) (prefixedDecoders : List Decoder) : Decoder :=
  transformDecoder
    (getTupleDecoder (prefixedDecoders ++ [decoder]))
    (fun tuple => tuple.jsIndex (tuple.jsLength.getD 0 - 1))

/-- Modelled from the spec: the `encode` convenience of codecs-core —
allocate a zero-filled buffer of the value's encoded size, write the
value at offset 0 and return the buffer (or the thrown error). -/
def Encoder.encode (encoder : Encoder) (value : Value) : Except CodecError (List Nat) :=
  match encoder.write value (List.replicate (getEncodedSize value encoder) 0) 0 with
  | (bytes, .ok _) => .ok bytes
  | (_, .error e) => .error e

/-- Modelled from the spec: the `decode` convenience of codecs-core —
read at offset 0 and return the decoded value. -/
def Decoder.decode (decoder : Decoder) (bytes : List Nat) : Except CodecError Value := do
  let (value, _) ← decoder.read bytes 0
  .ok value

/-- Overwrite the bytes of `bytes` starting at `offset` with `data`
(the in-place, in-range buffer write of an encoder). -/
def writeBytesAt (bytes : List Nat) (offset : Nat) (data : List Nat) : List Nat :=
  bytes.take offset ++ data ++ bytes.drop (offset + data.length)

/-- The buffer `bytes` holds exactly `data` starting at `offset`. -/
def SegAt (bytes : List Nat) (offset : Nat) (data : List Nat) : Prop :=
  (bytes.drop offset).take data.length = data

/-- The §4.2 contract of a well-behaved leaf encoder, witnessed by its
byte-string function `out`: the encoded size of a value is the length
of its bytes, and whenever those bytes fit, `write` places exactly them
at the given offset and returns the advanced offset. -/
def WritesOut (encoder : Encoder) (out : Value → List Nat) : Prop :=
  (∀ value, (out value).length = getEncodedSize value encoder) ∧
    ∀ value bytes offset, offset + (out value).length ≤ bytes.length →
      encoder.write value bytes offset =
        (writeBytesAt bytes offset (out value), .ok (offset + (out value).length))

/-- A write result that is not a thrown item-count mismatch. -/
def NoCountError (result : List Nat × Except CodecError Nat) : Prop :=
  ∀ desc expected actual, result.2 ≠ .error (.invalidNumberOfItems desc expected actual)

/-- The per-value contract of a round-tripping main decoder (§8): read
at any offset of a buffer holding the value's encoded bytes there
returns the value, consuming exactly those bytes. -/
def ReadsBack (decoder : Decoder) (out : Value → List Nat) (value : Value) : Prop :=
  ∀ bytes offset, SegAt bytes offset (out value) →
    decoder.read bytes offset = .ok (value, offset + (out value).length)

/-- The §4.4 contract of a hidden-prefix decoder: positioned on the
bytes its encoder produced for `undefined`, it consumes exactly that
many bytes (its result value is irrelevant). -/
def SkipsItsBytes (decoder : Decoder) (out : Value → List Nat) : Prop :=
  ∀ bytes offset, SegAt bytes offset (out .undefined) →
    ∃ w, decoder.read bytes offset = .ok (w, offset + (out .undefined).length)

/-- The base-58 alphabet from `base58.ts`. -/
def base58Alphabet : String := "123456789ABCDEFGHJKLMNPQRSTUVWXYZabcdefghijkmnopqrstuvwxyz"

/-- Modelled from the spec (§4.5): find the first character of the
input outside the alphabet, together with its position. -/
def findInvalidCharAux (alpha : List Char) : List Char → Nat → Option (Char × Nat)
  | [], _ => none
  | c :: rest, i => if c ∈ alpha then findInvalidCharAux alpha rest (i + 1) else some (c, i)

/-- The big-endian value of a digit string in the given base. -/
def digitsToNat (base : Nat) (digits : List Nat) : Nat :=
  digits.foldl (fun acc d => acc * base + d) 0

/-- Repeated division producing the minimal big-endian digit string of
`n` in the given base (`[]` for zero); `fuel ≥ n` suffices. -/
def natToDigitsAux (base : Nat) : Nat → Nat → List Nat
  | _, 0 => []
  | n, fuel + 1 => if n = 0 then [] else natToDigitsAux base (n / base) fuel ++ [n % base]

/-- The minimal big-endian digit string of `n` in the given base, with
no superfluous leading zero digit (`[]` for zero). -/
def natToDigits (base n : Nat) : List Nat :=
  natToDigitsAux base n n

/-- The digit string of an input string under the alphabet's
character-to-digit mapping (most significant character first). -/
def stringDigits (alpha : List Char) (chars : List Char) : List Nat :=
  chars.map fun c => (alpha.findIdx? (fun a => a == c)).getD 0

/-- Modelled from the spec (§4.5 encoding algorithm, from `baseX.ts`
which is outside the given sources): fail with the invalid-character
condition for characters outside the alphabet; otherwise treat the
input as a base-B numeral, convert it to a minimal big-endian byte
sequence via repeated division by 256, and re-prepend one `0x00` byte
per leading occurrence of the alphabet's zero-digit character. -/
def baseXEncode (alphabet : String) (value : String) : Except CodecError (List Nat) :=
  let alpha := alphabet.toList
  let chars := value.toList
  match findInvalidCharAux alpha chars 0 with
  | some (c, i) => .error (.invalidBaseString value c i)
  | none =>
    let zeroChar := alpha.headD default
    let leadingZeroes := (chars.takeWhile fun c => c == zeroChar).length
    let n := digitsToNat alpha.length (stringDigits alpha chars)
    .ok (List.replicate leadingZeroes 0 ++ natToDigits 256 n)

/-- A concrete fixed-size encoder writing the constant byte string
`data` whatever the value; used to instantiate the combinators on
concrete inputs. -/
def constEncoder (data : List Nat) : Encoder :=
  { size := .fixed data.length
    getSizeFromValue := fun _ => data.length
    write := fun _ bytes offset => (writeBytesAt bytes offset data, .ok (offset + data.length)) }

/-- A concrete fixed-size decoder consuming `len` bytes and returning
the constant value `w`; used to instantiate the combinators on
concrete inputs. -/
def constDecoder (len : Nat) (w : Value) : Decoder :=
  { size := .fixed len
    read := fun _ offset => .ok (w, offset + len) }

/-- A concrete variable-size encoder of size zero with the given
declared bound; used to instantiate the size algebra. -/
def varEncoder (maxSize : Option Nat) : Encoder :=
  { size := .varSize maxSize
    getSizeFromValue := fun _ => 0
    write := fun _ bytes offset => (bytes, .ok offset) }

/-- A concrete variable-size decoder of size zero with the given
declared bound; used to instantiate the size algebra. -/
def varDecoder (maxSize : Option Nat) : Decoder :=
  { size := .varSize maxSize
    read := fun _ offset => .ok (.undefined, offset) }

/-- Modelled from the spec (§4.5 decoding algorithm, from `baseX.ts`
which is outside the given sources): count the leading `0x00` bytes,
convert the remaining big-endian bytes to an integer, render it as
base-B digits mapped back through the alphabet, and prepend one
zero-digit character per counted leading zero byte. -/
def baseXDecode (alphabet : String) (bytes : List Nat) : String :=
  let alpha := alphabet.toList
  let zeroChar := alpha.headD default
  let leadingZeroes := (bytes.takeWhile fun b => b == 0).length
  let n := digitsToNat 256 (bytes.drop leadingZeroes)
  let digits := natToDigits alpha.length n
  String.mk (List.replicate leadingZeroes zeroChar ++ digits.map fun d => alpha.getD d zeroChar)

/-! ## Lemmas about the size algebra -/

theorem sumCodecSizes_foldl_none (l : List (Option Nat)) :
    l.foldl sumCodecSizesStep none = none := by
  induction l with
  | nil => rfl
  | cons x l ih => cases x <;> simpa [sumCodecSizesStep] using ih

theorem sumCodecSizes_foldl_some (l : List (Option Nat)) :
    ∀ a : Nat, l.foldl sumCodecSizesStep (some a) = (sumCodecSizes l).map (a + ·) := by
  induction l with
  | nil => intro a; simp [sumCodecSizes]
  | cons x l ih =>
    intro a
    cases x with
    | none => simp [sumCodecSizes, sumCodecSizesStep, sumCodecSizes_foldl_none]
    | some b =>
      simp only [sumCodecSizes, List.foldl_cons, sumCodecSizesStep]
      rw [ih (a + b), ih (0 + b)]
      cases sumCodecSizes l <;> simp [Nat.add_assoc]

theorem sumCodecSizes_cons (x : Option Nat) (l : List (Option Nat)) :
    sumCodecSizes (x :: l) =
      match x with
      | none => none
      | some b => (sumCodecSizes l).map (b + ·) := by
  cases x with
  | none => simp [sumCodecSizes, sumCodecSizesStep, sumCodecSizes_foldl_none]
  | some b =>
    simp only [sumCodecSizes, List.foldl_cons, sumCodecSizesStep]
    rw [sumCodecSizes_foldl_some l (0 + b)]
    simp [sumCodecSizes]

theorem sumCodecSizes_of_mem_none (l : List (Option Nat)) (h : none ∈ l) :
    sumCodecSizes l = none := by
  induction l with
  | nil => cases h
  | cons x l ih =>
    rw [sumCodecSizes_cons]
    cases x with
    | none => rfl
    | some b =>
      have : none ∈ l := by
        rcases List.mem_cons.mp h with h1 | h1
        · cases h1
        · exact h1
      simp [ih this]

theorem sumCodecSizes_map_some (ns : List Nat) :
    sumCodecSizes (ns.map some) = some ns.sum := by
  induction ns with
  | nil => rfl
  | cons n ns ih => rw [List.map_cons, sumCodecSizes_cons]; simp [ih]

/-! ## The tuple item-count assertion -/

/-- C4: encoding a tuple value whose element count differs from the
number of item encoders fails with the item-count-mismatch condition
reporting the expected and actual counts, with the buffer returned
unchanged (the assertion runs before any item write), for arbitrary
item encoders. -/
theorem tuple_encode_count_mismatch (items : List Encoder) (vs : List Value)
    (bytes : List Nat) (offset : Nat) (h : vs.length ≠ items.length) :
    (getTupleEncoder items).write (.arr vs) bytes offset =
      (bytes, .error (.invalidNumberOfItems "tuple" items.length (some vs.length))) := by
  simp [getTupleEncoder, assertValidNumberOfItemsForCodec, Value.jsLength, h]

/-- Witness for `tuple_encode_count_mismatch` at a concrete input. -/
theorem tuple_encode_count_mismatch_witness :
    (1 : Nat) ≠ 0 ∧
      (getTupleEncoder []).write (.arr [.undefined]) [7, 7] 0 =
        ([7, 7], .error (.invalidNumberOfItems "tuple" 0 (some 1))) :=
  ⟨by decide, tuple_encode_count_mismatch [] [.undefined] [7, 7] 0 (by decide)⟩

/-! ## The tuple decoder's item loop -/

theorem readItems_ok_length (bytes : List Nat) :
    ∀ (items : List Decoder) (offset : Nat) (vs : List Value) (off' : Nat),
      readItems items bytes offset = .ok (vs, off') → vs.length = items.length := by
  intro items
  induction items with
  | nil =>
    intro offset vs off' h
    simp only [readItems, Except.ok.injEq, Prod.mk.injEq] at h
    simp [← h.1]
  | cons d rest ih =>
    intro offset vs off' h
    simp only [readItems] at h
    cases hr : d.read bytes offset with
    | error e => rw [hr] at h; simp [Bind.bind, Except.bind] at h
    | ok p =>
      obtain ⟨v, o⟩ := p
      rw [hr] at h
      simp only [Bind.bind, Except.bind] at h
      cases hr2 : readItems rest bytes o with
      | error e => rw [hr2] at h; simp at h
      | ok q =>
        obtain ⟨vals, fo⟩ := q
        rw [hr2] at h
        simp only [Except.ok.injEq, Prod.mk.injEq] at h
        have := ih o vals fo hr2
        simp [← h.1, this]

theorem readItems_total (bytes : List Nat) :
    ∀ (items : List Decoder),
      (∀ d ∈ items, ∀ off, ∃ v o, d.read bytes off = .ok (v, o)) →
      ∀ offset, ∃ vs off', readItems items bytes offset = .ok (vs, off') ∧
        vs.length = items.length := by
  intro items
  induction items with
  | nil => intro _ offset; exact ⟨[], offset, rfl, rfl⟩
  | cons d rest ih =>
    intro htotal offset
    obtain ⟨v, o, hv⟩ := htotal d (List.mem_cons_self d rest) offset
    obtain ⟨vs, off', hvs, hlen⟩ :=
      ih (fun d' hd' => htotal d' (List.mem_cons_of_mem d hd')) o
    refine ⟨v :: vs, off', ?_, by simp [hlen]⟩
    simp only [readItems, Bind.bind, Except.bind, hv, hvs]

/-- C9: the tuple decoder performs no element-count check — whenever
its read succeeds the result is an array holding exactly one decoded
value per item decoder, and it does succeed as soon as every item
decoder's read succeeds. -/
theorem tuple_decode_one_value_per_item (items : List Decoder) (bytes : List Nat)
    (offset : Nat) :
    (∀ v off', (getTupleDecoder items).read bytes offset = .ok (v, off') →
      ∃ vs, v = .arr vs ∧ vs.length = items.length) ∧
    ((∀ d ∈ items, ∀ off, ∃ v o, d.read bytes off = .ok (v, o)) →
      ∃ vs off', (getTupleDecoder items).read bytes offset = .ok (.arr vs, off') ∧
        vs.length = items.length) := by
  constructor
  · intro v off' h
    simp only [getTupleDecoder] at h
    cases hr : readItems items bytes offset with
    | error e => rw [hr] at h; simp [Bind.bind, Except.bind] at h
    | ok p =>
      obtain ⟨vals, fo⟩ := p
      rw [hr] at h
      simp only [Bind.bind, Except.bind, Except.ok.injEq, Prod.mk.injEq] at h
      exact ⟨vals, h.1.symm, readItems_ok_length bytes items offset vals fo hr⟩
  · intro htotal
    obtain ⟨vs, off', hvs, hlen⟩ := readItems_total bytes items htotal offset
    exact ⟨vs, off', by simp only [getTupleDecoder, Bind.bind, Except.bind, hvs], hlen⟩

/-- Witness for `tuple_decode_one_value_per_item`: both conjuncts
applied at a concrete decoder list and byte input. -/
theorem tuple_decode_one_value_per_item_witness :
    (∃ vs, Value.arr [Value.nat 5] = .arr vs ∧ vs.length = 1) ∧
    (∃ vs off',
      (getTupleDecoder [constDecoder 2 (.nat 5)]).read [1, 2, 3] 0 = .ok (.arr vs, off') ∧
        vs.length = 1) := by
  constructor
  · exact (tuple_decode_one_value_per_item [constDecoder 2 (.nat 5)] [1, 2, 3] 0).1
      (.arr [.nat 5]) 2 (by rfl)
  · exact (tuple_decode_one_value_per_item [constDecoder 2 (.nat 5)] [1, 2, 3] 0).2
      (by
        intro d hd off
        simp only [List.mem_singleton] at hd
        exact ⟨.nat 5, off + 2, by rw [hd]; rfl⟩)

/-! ## The size algebra of the tuple combinator -/

theorem sumCodecSizes_eq_some :
    ∀ (l : List (Option Nat)) (n : Nat), sumCodecSizes l = some n →
      ∃ ns : List Nat, l = ns.map some ∧ ns.sum = n := by
  intro l
  induction l with
  | nil =>
    intro n h
    exact ⟨[], rfl, by simpa [sumCodecSizes] using h⟩
  | cons x l ih =>
    intro n h
    rw [sumCodecSizes_cons] at h
    cases x with
    | none => simp at h
    | some b =>
      cases hl : sumCodecSizes l with
      | none => rw [hl] at h; simp at h
      | some m =>
        rw [hl] at h
        simp only [Option.map] at h
        injection h with h
        obtain ⟨ns, hns, hsum⟩ := ih m hl
        exact ⟨b :: ns, by simp [hns], by simp [hsum, h]⟩

theorem fixedSizeOf_some_maxSizeOf (s : CodecSize) (n : Nat)
    (h : fixedSizeOf s = some n) : maxSizeOf s = some n := by
  cases s <;> simp_all [fixedSizeOf, maxSizeOf]

theorem maxSizeOf_none_fixedSizeOf (s : CodecSize) (h : maxSizeOf s = none) :
    fixedSizeOf s = none := by
  cases s <;> simp_all [fixedSizeOf, maxSizeOf]

theorem map_maxSizeOf_of_fixed {α : Type} (f : α → CodecSize) :
    ∀ (l : List α) (ns : List Nat),
      l.map (fun i => fixedSizeOf (f i)) = ns.map some →
      l.map (fun i => maxSizeOf (f i)) = ns.map some := by
  intro l
  induction l with
  | nil => intro ns h; cases ns <;> simp_all
  | cons x l ih =>
    intro ns h
    cases ns with
    | nil => simp at h
    | cons n ns =>
      simp only [List.map_cons, List.cons.injEq] at h ⊢
      exact ⟨fixedSizeOf_some_maxSizeOf _ _ h.1, ih ns h.2⟩

theorem mem_none_fixed_of_mem_none_max {α : Type} (f : α → CodecSize) (l : List α)
    (h : none ∈ l.map fun i => maxSizeOf (f i)) :
    none ∈ l.map fun i => fixedSizeOf (f i) := by
  simp only [List.mem_map] at h ⊢
  obtain ⟨x, hx, hnone⟩ := h
  exact ⟨x, hx, maxSizeOf_none_fixedSizeOf _ hnone⟩

/-- C5: the tuple combinator's size descriptor obeys the size algebra,
for the encoder and the decoder alike: all items fixed gives a fixed
size equal to the exact sum; all items bounded gives a max equal to the
sum of the bounds; a non-fixed item gives no fixed size; an unbounded
item gives no max. -/
theorem tuple_size_additivity (items : List Encoder) (ditems : List Decoder) :
    (∀ ns : List Nat, (items.map fun i => fixedSizeOf i.size) = ns.map some →
      fixedSizeOf (getTupleEncoder items).size = some ns.sum) ∧
    (∀ ns : List Nat, (items.map fun i => maxSizeOf i.size) = ns.map some →
      maxSizeOf (getTupleEncoder items).size = some ns.sum) ∧
    ((none ∈ items.map fun i => fixedSizeOf i.size) →
      fixedSizeOf (getTupleEncoder items).size = none) ∧
    ((none ∈ items.map fun i => maxSizeOf i.size) →
      maxSizeOf (getTupleEncoder items).size = none) ∧
    (∀ ns : List Nat, (ditems.map fun i => fixedSizeOf i.size) = ns.map some →
      fixedSizeOf (getTupleDecoder ditems).size = some ns.sum) ∧
    (∀ ns : List Nat, (ditems.map fun i => maxSizeOf i.size) = ns.map some →
      maxSizeOf (getTupleDecoder ditems).size = some ns.sum) ∧
    ((none ∈ ditems.map fun i => fixedSizeOf i.size) →
      fixedSizeOf (getTupleDecoder ditems).size = none) ∧
    ((none ∈ ditems.map fun i => maxSizeOf i.size) →
      maxSizeOf (getTupleDecoder ditems).size = none) := by
  refine ⟨?_, ?_, ?_, ?_, ?_, ?_, ?_, ?_⟩
  · intro ns h
    simp only [getTupleEncoder]
    rw [h, sumCodecSizes_map_some]
    rfl
  · intro ns h
    cases hf : sumCodecSizes (items.map fun i => fixedSizeOf i.size) with
    | none =>
      simp only [getTupleEncoder]
      rw [hf, h, sumCodecSizes_map_some]
      rfl
    | some m =>
      obtain ⟨ks, hks, hksum⟩ := sumCodecSizes_eq_some _ m hf
      have hmax := map_maxSizeOf_of_fixed Encoder.size items ks hks
      have hnk : ns = ks :=
        List.map_injective_iff.mpr (Option.some_injective Nat) (h.symm.trans hmax)
      simp only [getTupleEncoder]
      rw [hf, hnk, hksum]
      rfl
  · intro h
    simp only [getTupleEncoder]
    rw [sumCodecSizes_of_mem_none _ h]
    rfl
  · intro h
    have hfix := mem_none_fixed_of_mem_none_max Encoder.size items h
    simp only [getTupleEncoder]
    rw [sumCodecSizes_of_mem_none _ hfix]
    exact sumCodecSizes_of_mem_none _ h
  · intro ns h
    simp only [getTupleDecoder]
    rw [h, sumCodecSizes_map_some]
    rfl
  · intro ns h
    cases hf : sumCodecSizes (ditems.map fun i => fixedSizeOf i.size) with
    | none =>
      simp only [getTupleDecoder]
      rw [hf, h, sumCodecSizes_map_some]
      rfl
    | some m =>
      obtain ⟨ks, hks, hksum⟩ := sumCodecSizes_eq_some _ m hf
      have hmax := map_maxSizeOf_of_fixed Decoder.size ditems ks hks
      have hnk : ns = ks :=
        List.map_injective_iff.mpr (Option.some_injective Nat) (h.symm.trans hmax)
      simp only [getTupleDecoder]
      rw [hf, hnk, hksum]
      rfl
  · intro h
    simp only [getTupleDecoder]
    rw [sumCodecSizes_of_mem_none _ h]
    rfl
  · intro h
    have hfix := mem_none_fixed_of_mem_none_max Decoder.size ditems h
    simp only [getTupleDecoder]
    rw [sumCodecSizes_of_mem_none _ hfix]
    exact sumCodecSizes_of_mem_none _ h

/-- Witness for `tuple_size_additivity`: the fixed-sum and max-sum
conjuncts at an all-fixed item list, and the none-propagation conjuncts
at a list holding an unbounded variable-size item. -/
theorem tuple_size_additivity_witness :
    (fixedSizeOf (getTupleEncoder [constEncoder [9], constEncoder [8, 7]]).size =
      some ([1, 2] : List Nat).sum) ∧
    (maxSizeOf (getTupleEncoder [constEncoder [9], constEncoder [8, 7]]).size =
      some ([1, 2] : List Nat).sum) ∧
    (fixedSizeOf (getTupleEncoder [constEncoder [9], varEncoder none]).size = none) ∧
    (maxSizeOf (getTupleEncoder [constEncoder [9], varEncoder none]).size = none) ∧
    (fixedSizeOf (getTupleDecoder [constDecoder 3 .undefined]).size = some ([3] : List Nat).sum) ∧
    (maxSizeOf (getTupleDecoder [varDecoder (some 4)]).size = some ([4] : List Nat).sum) ∧
    (fixedSizeOf (getTupleDecoder [varDecoder (some 4)]).size = none) ∧
    (maxSizeOf (getTupleDecoder [varDecoder none]).size = none) :=
  ⟨(tuple_size_additivity [constEncoder [9], constEncoder [8, 7]] []).1 [1, 2] (by rfl),
   (tuple_size_additivity [constEncoder [9], constEncoder [8, 7]] []).2.1 [1, 2] (by rfl),
   (tuple_size_additivity [constEncoder [9], varEncoder none] []).2.2.1 (by simp [constEncoder, varEncoder, fixedSizeOf]),
   (tuple_size_additivity [constEncoder [9], varEncoder none] []).2.2.2.1 (by simp [constEncoder, varEncoder, maxSizeOf]),
   (tuple_size_additivity [] [constDecoder 3 .undefined]).2.2.2.2.1 [3] (by rfl),
   (tuple_size_additivity [] [varDecoder (some 4)]).2.2.2.2.2.1 [4] (by rfl),
   (tuple_size_additivity [] [varDecoder (some 4)]).2.2.2.2.2.2.1 (by simp [varDecoder, fixedSizeOf]),
   (tuple_size_additivity [] [varDecoder none]).2.2.2.2.2.2.2 (by simp [varDecoder, maxSizeOf])⟩

/-! ## Buffer splicing -/

theorem writeBytesAt_nil (bytes : List Nat) (offset : Nat) :
    writeBytesAt bytes offset [] = bytes := by
  simp [writeBytesAt, List.take_append_drop]

theorem writeBytesAt_length (bytes data : List Nat) (offset : Nat)
    (h : offset + data.length ≤ bytes.length) :
    (writeBytesAt bytes offset data).length = bytes.length := by
  simp only [writeBytesAt, List.length_append, List.length_take, List.length_drop]
  omega

theorem writeBytesAt_zero_full (bytes data : List Nat) (h : data.length = bytes.length) :
    writeBytesAt bytes 0 data = data := by
  simp [writeBytesAt, h, List.drop_length]

theorem writeBytesAt_append (bytes d1 d2 : List Nat) (offset : Nat)
    (h : offset + d1.length + d2.length ≤ bytes.length) :
    writeBytesAt (writeBytesAt bytes offset d1) (offset + d1.length) d2 =
      writeBytesAt bytes offset (d1 ++ d2) := by
  have htake : (bytes.take offset).length = offset := by
    simp only [List.length_take]
    omega
  have hTd1 : (bytes.take offset ++ d1).length = offset + d1.length := by
    simp [htake]
  simp only [writeBytesAt]
  rw [List.take_left' hTd1]
  rw [← List.drop_drop]
  rw [List.drop_left' hTd1]
  rw [List.drop_drop]
  simp [List.append_assoc, List.length_append, Nat.add_assoc]

/-! ## The tuple encoder's item loop under the leaf contract -/

theorem writeItems_writesOut {items : List Encoder} {outs : List (Value → List Nat)}
    (hrel : List.Forall₂ WritesOut items outs) :
    ∀ (vs : List Value) (bytes : List Nat) (offset : Nat),
      vs.length = items.length →
      offset + (List.zipWith (fun f v => f v) outs vs).flatten.length ≤ bytes.length →
      writeItems items vs bytes offset =
        (writeBytesAt bytes offset (List.zipWith (fun f v => f v) outs vs).flatten,
          .ok (offset + (List.zipWith (fun f v => f v) outs vs).flatten.length)) := by
  induction hrel with
  | nil =>
    intro vs bytes offset hlen hfit
    have hnil : vs = [] := List.length_eq_zero.mp hlen
    subst hnil
    simp [writeItems, writeBytesAt_nil]
  | @cons a b l1 l2 h1 h2 ih =>
    intro vs bytes offset hlen hfit
    cases vs with
    | nil => simp at hlen
    | cons v vs' =>
      simp only [List.zipWith_cons_cons, List.flatten_cons, List.length_append] at hfit ⊢
      have hb : offset + (b v).length ≤ bytes.length :=
        le_trans (Nat.add_le_add_left (Nat.le_add_right _ _) offset) hfit
      have hw := h1.2 v bytes offset hb
      have hlen' : vs'.length = l1.length := by simpa using hlen
      have hB1len : (writeBytesAt bytes offset (b v)).length = bytes.length :=
        writeBytesAt_length bytes (b v) offset hb
      have hfit' : offset + (b v).length +
          (List.zipWith (fun f v => f v) l2 vs').flatten.length ≤
          (writeBytesAt bytes offset (b v)).length := by
        rw [hB1len, Nat.add_assoc]; exact hfit
      have hrec := ih vs' (writeBytesAt bytes offset (b v)) (offset + (b v).length) hlen' hfit'
      simp only [writeItems, List.headD_cons, List.tail_cons, hw]
      rw [hrec, writeBytesAt_append bytes (b v) _ offset (by rw [Nat.add_assoc]; exact hfit)]
      rw [Nat.add_assoc]

theorem getTupleEncoder_write_arr (items : List Encoder) (vs : List Value)
    (bytes : List Nat) (offset : Nat) (h : vs.length = items.length) :
    (getTupleEncoder items).write (.arr vs) bytes offset = writeItems items vs bytes offset := by
  simp [getTupleEncoder, assertValidNumberOfItemsForCodec, Value.jsLength, Value.jsElems, h]

theorem readItems_consuming (bytes : List Nat) {ds : List Decoder} {lens : List Nat}
    (hrel : List.Forall₂ (fun d len => ∀ off, off + len ≤ bytes.length →
      ∃ v, d.read bytes off = .ok (v, off + len)) ds lens) :
    ∀ offset, offset + lens.sum ≤ bytes.length →
      ∃ vs, readItems ds bytes offset = .ok (vs, offset + lens.sum) ∧
        vs.length = ds.length := by
  induction hrel with
  | nil => intro offset _; exact ⟨[], by simp [readItems], rfl⟩
  | @cons d len ds' lens' h1 h2 ih =>
    intro offset hfit
    simp only [List.sum_cons] at hfit ⊢
    have hd : offset + len ≤ bytes.length := by omega
    obtain ⟨v, hv⟩ := h1 offset hd
    obtain ⟨vs, hvs, hlen⟩ := ih (offset + len) (by omega)
    refine ⟨v :: vs, ?_, by simp [hlen]⟩
    simp only [readItems, Bind.bind, Except.bind, hv, hvs]
    simp [Nat.add_assoc]

/-- C6: tuple encoding writes the items strictly in declaration order
into contiguous, non-overlapping byte ranges laid head to tail from the
starting offset (each item beginning where the previous write ended),
and tuple decoding reads the items in the same order, consuming in
total exactly the sum of the items' byte lengths from the starting
offset. -/
theorem tuple_contiguous_in_order :
    (∀ (items : List Encoder) (outs : List (Value → List Nat)) (vs : List Value)
      (bytes : List Nat) (offset : Nat),
      List.Forall₂ WritesOut items outs → vs.length = items.length →
      offset + (List.zipWith (fun f v => f v) outs vs).flatten.length ≤ bytes.length →
      (getTupleEncoder items).write (.arr vs) bytes offset =
        (writeBytesAt bytes offset (List.zipWith (fun f v => f v) outs vs).flatten,
          .ok (offset + (List.zipWith (fun f v => f v) outs vs).flatten.length))) ∧
    (∀ (ds : List Decoder) (lens : List Nat) (bytes : List Nat) (offset : Nat),
      List.Forall₂ (fun d len => ∀ off, off + len ≤ bytes.length →
        ∃ v, d.read bytes off = .ok (v, off + len)) ds lens →
      offset + lens.sum ≤ bytes.length →
      ∃ vs, (getTupleDecoder ds).read bytes offset = .ok (.arr vs, offset + lens.sum) ∧
        vs.length = ds.length) := by
  constructor
  · intro items outs vs bytes offset hrel hlen hfit
    rw [getTupleEncoder_write_arr items vs bytes offset hlen]
    exact writeItems_writesOut hrel vs bytes offset hlen hfit
  · intro ds lens bytes offset hrel hfit
    obtain ⟨vs, hvs, hlen⟩ := readItems_consuming bytes hrel offset hfit
    exact ⟨vs, by simp only [getTupleDecoder, Bind.bind, Except.bind, hvs], hlen⟩

/-- Witness for `tuple_contiguous_in_order`: a one-item tuple written
into and read from a concrete two-byte buffer. -/
theorem tuple_contiguous_in_order_witness :
    ((getTupleEncoder [constEncoder [5]]).write (.arr [.undefined]) [9, 9] 0 =
      (writeBytesAt [9, 9] 0
          (List.zipWith (fun f v => f v) [fun _ => ([5] : List Nat)] [Value.undefined]).flatten,
        .ok (0 +
          (List.zipWith (fun f v => f v) [fun _ => ([5] : List Nat)] [Value.undefined]).flatten.length))) ∧
    (∃ vs, (getTupleDecoder [constDecoder 1 .undefined]).read [9, 9] 0 =
      .ok (.arr vs, 0 + ([1] : List Nat).sum) ∧ vs.length = [constDecoder 1 .undefined].length) :=
  ⟨tuple_contiguous_in_order.1 [constEncoder [5]] [fun _ => [5]] [.undefined] [9, 9] 0
      (List.Forall₂.cons ⟨fun _ => rfl, fun _ _ _ _ => rfl⟩ List.Forall₂.nil)
      (by decide) (by decide),
    tuple_contiguous_in_order.2 [constDecoder 1 .undefined] [1] [9, 9] 0
      (List.Forall₂.cons (fun off h => ⟨.undefined, rfl⟩) List.Forall₂.nil)
      (by decide)⟩

/-! ## The hidden-prefix combinator -/

theorem getEncodedSize_transform (inner : Encoder) (unmap : Value → Value) (v : Value) :
    getEncodedSize v (transformEncoder inner unmap) = getEncodedSize (unmap v) inner := by
  cases hs : inner.size <;> simp [transformEncoder, getEncodedSize, hs]

theorem itemSizes_of_all_fixed :
    ∀ (items : List Encoder) (vs : List Value) (n : Nat),
      sumCodecSizes (items.map fun i => fixedSizeOf i.size) = some n →
      itemSizes items vs = n := by
  intro items
  induction items with
  | nil =>
    intro vs n h
    simp only [List.map_nil] at h
    have : n = 0 := by simpa [sumCodecSizes] using h.symm
    simp [itemSizes, this]
  | cons e es ih =>
    intro vs n h
    rw [List.map_cons, sumCodecSizes_cons] at h
    cases hf : fixedSizeOf e.size with
    | none => rw [hf] at h; simp at h
    | some k =>
      rw [hf] at h
      cases hs : sumCodecSizes (es.map fun i => fixedSizeOf i.size) with
      | none => rw [hs] at h; simp at h
      | some m =>
        rw [hs] at h
        simp only [Option.map_some, Option.some.injEq] at h
        have hk : getEncodedSize (vs.headD .undefined) e = k := by
          cases hes : e.size with
          | fixed j =>
            rw [hes] at hf
            simp only [fixedSizeOf, Option.some.injEq] at hf
            simp [getEncodedSize, hes, hf]
          | varSize m' => rw [hes] at hf; simp [fixedSizeOf] at hf
        simp only [itemSizes]
        rw [hk, ih vs.tail m hs]
        simpa using h

theorem tuple_getEncodedSize (items : List Encoder) (vs : List Value) :
    getEncodedSize (.arr vs) (getTupleEncoder items) = itemSizes items vs := by
  cases hs : sumCodecSizes (items.map fun i => fixedSizeOf i.size) with
  | some n =>
    have h1 : getEncodedSize (.arr vs) (getTupleEncoder items) = n := by
      simp only [getTupleEncoder, getEncodedSize]
      rw [hs]
    rw [h1, itemSizes_of_all_fixed items vs n hs]
  | none =>
    simp only [getTupleEncoder, getEncodedSize]
    rw [hs]
    rfl

theorem itemSizes_eq_flatten {items : List Encoder} {outs : List (Value → List Nat)}
    (hrel : List.Forall₂ WritesOut items outs) :
    ∀ vs : List Value, vs.length = items.length →
      itemSizes items vs = (List.zipWith (fun f v => f v) outs vs).flatten.length := by
  induction hrel with
  | nil =>
    intro vs h
    have hnil : vs = [] := List.length_eq_zero.mp h
    subst hnil
    simp [itemSizes]
  | @cons a b l1 l2 h1 h2 ih =>
    intro vs h
    cases vs with
    | nil => simp at h
    | cons v vs' =>
      simp only [itemSizes, List.headD_cons, List.tail_cons, List.zipWith_cons_cons,
        List.flatten_cons, List.length_append]
      rw [← h1.1 v, ih vs' (by simpa using h)]

theorem zipWith_apply_all_undefined :
    ∀ (outs : List (Value → List Nat)) (us : List Value),
      us.length = outs.length → (∀ u ∈ us, u = Value.undefined) →
      List.zipWith (fun f v => f v) outs us = outs.map fun f => f Value.undefined := by
  intro outs
  induction outs with
  | nil => intro us _ _; simp
  | cons f fs ih =>
    intro us h hall
    cases us with
    | nil => simp at h
    | cons u us' =>
      have hu : u = Value.undefined := hall u (List.mem_cons_self u us')
      subst hu
      simp only [List.zipWith_cons_cons, List.map_cons]
      congr 1
      exact ih us' (by simpa using h) fun u hu => hall u (List.mem_cons_of_mem _ hu)

theorem hiddenPrefix_write_delegates (C : Encoder) (ps : List Encoder) (v : Value)
    (bytes : List Nat) (offset : Nat) :
    (getHiddenPrefixEncoder C ps).write v bytes offset =
      writeItems (ps ++ [C]) (ps.map (fun _ => Value.undefined) ++ [v]) bytes offset := by
  have hlen : (ps.map (fun _ => Value.undefined) ++ [v]).length = (ps ++ [C]).length := by simp
  simp only [getHiddenPrefixEncoder, transformEncoder]
  exact getTupleEncoder_write_arr _ _ bytes offset hlen

theorem encode_eq_of_write (e : Encoder) (v : Value) (out : List Nat)
    (hsize : getEncodedSize v e = out.length)
    (hw : e.write v (List.replicate out.length 0) 0 = (out, .ok out.length)) :
    e.encode v = .ok out := by
  simp only [Encoder.encode, hsize, hw]

theorem hiddenPrefix_encode_eq (C : Encoder) (outC : Value → List Nat)
    (ps : List Encoder) (outs : List (Value → List Nat)) (v : Value)
    (hC : WritesOut C outC) (hps : List.Forall₂ WritesOut ps outs) :
    (getHiddenPrefixEncoder C ps).encode v =
      .ok ((outs.map fun f => f Value.undefined).flatten ++ outC v) := by
  have hlen0 : ps.length = outs.length := hps.length_eq
  have hall : List.Forall₂ WritesOut (ps ++ [C]) (outs ++ [outC]) :=
    List.rel_append hps (List.Forall₂.cons hC List.Forall₂.nil)
  have hulen : (ps.map fun _ => Value.undefined).length = ps.length := by simp
  have hvals_len : ((ps.map fun _ => Value.undefined) ++ [v]).length = (ps ++ [C]).length := by
    simp
  have hzip : List.zipWith (fun f v => f v) (outs ++ [outC])
      ((ps.map fun _ => Value.undefined) ++ [v]) =
      (outs.map fun f => f Value.undefined) ++ [outC v] := by
    rw [List.zipWith_append _ _ _ _ _ (by rw [hulen, hlen0])]
    congr 1
    exact zipWith_apply_all_undefined outs (ps.map fun _ => Value.undefined)
      (by rw [hulen, hlen0]) (by simp)
  have hflat : (List.zipWith (fun f v => f v) (outs ++ [outC])
      ((ps.map fun _ => Value.undefined) ++ [v])).flatten =
      (outs.map fun f => f Value.undefined).flatten ++ outC v := by
    rw [hzip, List.flatten_append]
    simp
  have hsize : getEncodedSize v (getHiddenPrefixEncoder C ps) =
      ((outs.map fun f => f Value.undefined).flatten ++ outC v).length := by
    have h1 : getEncodedSize v (getHiddenPrefixEncoder C ps) =
        getEncodedSize (.arr ((ps.map fun _ => Value.undefined) ++ [v]))
          (getTupleEncoder (ps ++ [C])) := by
      simp only [getHiddenPrefixEncoder]
      rw [getEncodedSize_transform]
    rw [h1, tuple_getEncodedSize, itemSizes_eq_flatten hall _ hvals_len, hflat]
  apply encode_eq_of_write _ _ _ hsize
  rw [hiddenPrefix_write_delegates]
  have hfit : 0 + (List.zipWith (fun f v => f v) (outs ++ [outC])
      ((ps.map fun _ => Value.undefined) ++ [v])).flatten.length ≤
      (List.replicate ((outs.map fun f => f Value.undefined).flatten ++ outC v).length 0).length := by
    rw [hflat]
    simp
  rw [writeItems_writesOut hall _ _ 0 hvals_len hfit]
  rw [hflat]
  rw [writeBytesAt_zero_full _ _ (by simp)]
  simp

theorem encode_writesOut (e : Encoder) (out : Value → List Nat) (h : WritesOut e out)
    (v : Value) : e.encode v = .ok (out v) := by
  apply encode_eq_of_write _ _ _ (h.1 v).symm
  have hw := h.2 v (List.replicate (out v).length 0) 0 (by simp)
  rw [hw, writeBytesAt_zero_full _ _ (by simp)]
  simp

theorem map_encode_writesOut {ps : List Encoder} {outs : List (Value → List Nat)}
    (hps : List.Forall₂ WritesOut ps outs) :
    ps.map (fun p => p.encode .undefined) = outs.map fun f => .ok (f .undefined) := by
  induction hps with
  | nil => rfl
  | @cons a b l1 l2 h1 h2 ih => simp [encode_writesOut a b h1, ih]

/-- C3: the bytes produced by the hidden-prefix encoder are the
byte-for-byte concatenation of each prefix encoder's encoding of
`undefined`, in the exact order supplied, followed by the main
encoder's encoding of the value. -/
theorem hiddenPrefix_bytes_concat (C : Encoder) (outC : Value → List Nat)
    (ps : List Encoder) (outs : List (Value → List Nat)) (v : Value)
    (hC : WritesOut C outC) (hps : List.Forall₂ WritesOut ps outs) :
    (getHiddenPrefixEncoder C ps).encode v =
      .ok ((outs.map fun f => f Value.undefined).flatten ++ outC v) ∧
    ps.map (fun p => p.encode .undefined) = outs.map (fun f => .ok (f .undefined)) ∧
    C.encode v = .ok (outC v) :=
  ⟨hiddenPrefix_encode_eq C outC ps outs v hC hps, map_encode_writesOut hps,
    encode_writesOut C outC hC v⟩

/-- Witness for `hiddenPrefix_bytes_concat`: two constant prefixes and
a constant main encoder produce the concatenated bytes. -/
theorem hiddenPrefix_bytes_concat_witness :
    (getHiddenPrefixEncoder (constEncoder [7, 8])
        [constEncoder [1, 2], constEncoder [3]]).encode (.nat 0) = .ok [1, 2, 3, 7, 8] ∧
    (constEncoder [7, 8]).encode (.nat 0) = .ok [7, 8] := by
  have h := hiddenPrefix_bytes_concat (constEncoder [7, 8]) (fun _ => [7, 8])
    [constEncoder [1, 2], constEncoder [3]] [fun _ => [1, 2], fun _ => [3]] (.nat 0)
    ⟨fun _ => rfl, fun _ _ _ _ => rfl⟩
    (List.Forall₂.cons ⟨fun _ => rfl, fun _ _ _ _ => rfl⟩
      (List.Forall₂.cons ⟨fun _ => rfl, fun _ _ _ _ => rfl⟩ List.Forall₂.nil))
  exact ⟨h.1, h.2.2⟩

theorem writeItems_noCountError :
    ∀ (items : List Encoder) (vals : List Value) (bytes : List Nat) (offset : Nat),
      (∀ e ∈ items, ∀ w bs off, NoCountError (e.write w bs off)) →
      NoCountError (writeItems items vals bytes offset) := by
  intro items
  induction items with
  | nil =>
    intro vals bytes offset _ desc expected actual hcontra
    simp [writeItems] at hcontra
  | cons e es ih =>
    intro vals bytes offset h
    simp only [writeItems]
    cases hw : e.write (vals.headD .undefined) bytes offset with
    | mk bs' r =>
      cases r with
      | ok o' => exact ih vals.tail bs' o' fun e' he' => h e' (List.mem_cons_of_mem _ he')
      | error err =>
        intro desc expected actual hcontra
        exact h e (List.mem_cons_self e es) (vals.headD .undefined) bytes offset desc expected
          actual (by rw [hw]; exact hcontra)

/-- C10: the tuple value synthesized by the hidden-prefix encoder has
exactly one element per inner tuple item, so the delegated tuple
write's count assertion always passes (the write goes straight to the
item loop), and hidden-prefix encoding never fails with the
item-count-mismatch condition as long as no item write itself throws
one. -/
theorem hiddenPrefix_never_count_mismatch (C : Encoder) (ps : List Encoder) (v : Value)
    (bytes : List Nat) (offset : Nat) :
    (ps.map (fun _ => Value.undefined) ++ [v]).length = (ps ++ [C]).length ∧
    (getHiddenPrefixEncoder C ps).write v bytes offset =
      writeItems (ps ++ [C]) (ps.map (fun _ => Value.undefined) ++ [v]) bytes offset ∧
    ((∀ e ∈ ps ++ [C], ∀ w bs off, NoCountError (e.write w bs off)) →
      NoCountError ((getHiddenPrefixEncoder C ps).write v bytes offset)) := by
  refine ⟨by simp, hiddenPrefix_write_delegates C ps v bytes offset, ?_⟩
  intro h
  rw [hiddenPrefix_write_delegates]
  exact writeItems_noCountError _ _ _ _ h

/-- Witness for `hiddenPrefix_never_count_mismatch` at a concrete
constant prefix and main encoder. -/
theorem hiddenPrefix_never_count_mismatch_witness :
    (([constEncoder [1]].map (fun _ => Value.undefined) ++ [Value.undefined]).length =
      ([constEncoder [1]] ++ [constEncoder [7]]).length) ∧
    NoCountError
      ((getHiddenPrefixEncoder (constEncoder [7]) [constEncoder [1]]).write .undefined [0, 0] 0) := by
  have h := hiddenPrefix_never_count_mismatch (constEncoder [7]) [constEncoder [1]]
    .undefined [0, 0] 0
  refine ⟨h.1, h.2.2 ?_⟩
  intro e he w bs off
  rcases List.mem_cons.mp he with h1 | h1
  · subst h1; intro desc exp act hc; exact Except.noConfusion hc
  · rcases List.mem_cons.mp h1 with h2 | h2
    · subst h2; intro desc exp act hc; exact Except.noConfusion hc
    · cases h2

/-! ## The hidden-prefix round trip -/

theorem SegAt_append_parts {bytes d1 d2 : List Nat} {offset : Nat}
    (h : SegAt bytes offset (d1 ++ d2)) :
    SegAt bytes offset d1 ∧ SegAt bytes (offset + d1.length) d2 := by
  unfold SegAt at h ⊢
  simp only [List.length_append] at h
  constructor
  · have h1 := congrArg (List.take d1.length) h
    rw [List.take_take] at h1
    rw [List.take_left] at h1
    have hmin : d1.length ⊓ (d1.length + d2.length) = d1.length := by
      simp
    rw [hmin] at h1
    exact h1
  · have h2 := congrArg (List.drop d1.length) h
    rw [List.drop_take, List.drop_left, List.drop_drop] at h2
    have hsub : d1.length + d2.length - d1.length = d2.length := by omega
    rw [hsub] at h2
    exact h2

theorem getD_append_singleton (l : List Value) (x : Value) :
    (l ++ [x]).getD l.length Value.undefined = x := by
  rw [List.getD_eq_getElem?_getD, List.getElem?_append_right (le_refl l.length)]
  simp

theorem readItems_skip_main (bytes : List Nat) {pds : List Decoder}
    {outs : List (Value → List Nat)}
    (hrel : List.Forall₂ SkipsItsBytes pds outs) (Cd : Decoder)
    (outC : Value → List Nat) (v : Value) (hCd : ReadsBack Cd outC v) :
    ∀ offset, SegAt bytes offset ((outs.map fun f => f Value.undefined).flatten ++ outC v) →
      ∃ ws, readItems (pds ++ [Cd]) bytes offset =
        .ok (ws ++ [v],
          offset + (outs.map fun f => f Value.undefined).flatten.length + (outC v).length) ∧
        ws.length = pds.length := by
  induction hrel with
  | nil =>
    intro offset hseg
    have hread := hCd bytes offset (by simpa using hseg)
    refine ⟨[], ?_, rfl⟩
    simp only [List.nil_append, readItems, Bind.bind, Except.bind, hread]
    simp
  | @cons pd f pds' outs' h1 h2 ih =>
    intro offset hseg
    rw [List.map_cons, List.flatten_cons, List.append_assoc] at hseg
    obtain ⟨hseg1, hseg2⟩ := SegAt_append_parts hseg
    obtain ⟨w, hw⟩ := h1 bytes offset hseg1
    obtain ⟨ws, hws, hlen⟩ := ih (offset + (f .undefined).length) hseg2
    refine ⟨w :: ws, ?_, by simp [hlen]⟩
    simp only [List.cons_append, readItems, Bind.bind, Except.bind, List.append_eq, hw, hws]
    simp [Nat.add_assoc]

/-- C2: hidden-prefix transparency — under the leaf contracts (the
main codec round-trips at any position and each hidden prefix decoder
consumes exactly the bytes its encoder produced), decoding the bytes
the hidden-prefix encoder produced returns the original value. -/
theorem hiddenPrefix_round_trip (C : Encoder) (outC : Value → List Nat) (Cd : Decoder)
    (ps : List Encoder) (outs : List (Value → List Nat)) (pds : List Decoder) (v : Value)
    (hC : WritesOut C outC) (hps : List.Forall₂ WritesOut ps outs)
    (hCd : ReadsBack Cd outC v) (hpds : List.Forall₂ SkipsItsBytes pds outs) :
    ∃ bs, (getHiddenPrefixEncoder C ps).encode v = .ok bs ∧
      (getHiddenPrefixDecoder Cd pds).decode bs = .ok v := by
  refine ⟨(outs.map fun f => f Value.undefined).flatten ++ outC v,
    hiddenPrefix_encode_eq C outC ps outs v hC hps, ?_⟩
  have hseg : SegAt ((outs.map fun f => f Value.undefined).flatten ++ outC v) 0
      ((outs.map fun f => f Value.undefined).flatten ++ outC v) := by
    unfold SegAt
    simp [List.take_of_length_le]
  obtain ⟨ws, hws, hlen⟩ := readItems_skip_main _ hpds Cd outC v hCd 0 hseg
  simp only [Decoder.decode, getHiddenPrefixDecoder, transformDecoder, getTupleDecoder,
    Bind.bind, Except.bind, hws]
  have hproj : (Value.arr (ws ++ [v])).jsIndex
      ((Value.arr (ws ++ [v])).jsLength.getD 0 - 1) = v := by
    simp only [Value.jsIndex, Value.jsLength, Option.getD_some, List.length_append,
      List.length_cons, List.length_nil]
    have : ws.length + 1 - 1 = ws.length := by omega
    rw [this]
    exact getD_append_singleton ws v
  rw [hproj]

/-- Witness for `hiddenPrefix_round_trip`: one constant prefix, a
one-byte main codec, and the value decoded back. -/
theorem hiddenPrefix_round_trip_witness :
    ∃ bs, (getHiddenPrefixEncoder (constEncoder [7]) [constEncoder [1, 2]]).encode (.nat 42) =
        .ok bs ∧
      (getHiddenPrefixDecoder (constDecoder 1 (.nat 42)) [constDecoder 2 .undefined]).decode bs =
        .ok (.nat 42) :=
  hiddenPrefix_round_trip (constEncoder [7]) (fun _ => [7]) (constDecoder 1 (.nat 42))
    [constEncoder [1, 2]] [fun _ => [1, 2]] [constDecoder 2 .undefined] (.nat 42)
    ⟨fun _ => rfl, fun _ _ _ _ => rfl⟩
    (List.Forall₂.cons ⟨fun _ => rfl, fun _ _ _ _ => rfl⟩ List.Forall₂.nil)
    (fun _ _ _ => rfl)
    (List.Forall₂.cons (fun _ _ _ => ⟨.undefined, rfl⟩) List.Forall₂.nil)

/-! ## Digit-string arithmetic for the base-X codec -/

theorem natToDigitsAux_zero (base fuel : Nat) : natToDigitsAux base 0 fuel = [] := by
  cases fuel <;> simp [natToDigitsAux]

theorem natToDigitsAux_fuel_eq (base : Nat) (hb : 2 ≤ base) :
    ∀ (n fuel1 fuel2 : Nat), n ≤ fuel1 → n ≤ fuel2 →
      natToDigitsAux base n fuel1 = natToDigitsAux base n fuel2 := by
  intro n
  induction n using Nat.strong_induction_on with
  | _ n ih =>
    intro fuel1 fuel2 h1 h2
    rcases Nat.eq_zero_or_pos n with hn | hn
    · subst hn
      rw [natToDigitsAux_zero, natToDigitsAux_zero]
    · obtain ⟨f1, rfl⟩ : ∃ f1, fuel1 = f1 + 1 :=
        ⟨fuel1 - 1, by omega⟩
      obtain ⟨f2, rfl⟩ : ∃ f2, fuel2 = f2 + 1 :=
        ⟨fuel2 - 1, by omega⟩
      have hdiv : n / base < n := Nat.div_lt_self hn (by omega)
      have hd1 : n / base ≤ f1 := by omega
      have hd2 : n / base ≤ f2 := by omega
      simp only [natToDigitsAux, if_neg (by omega : ¬ n = 0)]
      rw [ih (n / base) hdiv f1 f2 hd1 hd2]

theorem natToDigits_zero (base : Nat) : natToDigits base 0 = [] := by
  simp [natToDigits, natToDigitsAux]

theorem natToDigits_succ (base n : Nat) (hb : 2 ≤ base) (hn : 0 < n) :
    natToDigits base n = natToDigits base (n / base) ++ [n % base] := by
  obtain ⟨m, rfl⟩ : ∃ m, n = m + 1 := ⟨n - 1, by omega⟩
  have hdiv : (m + 1) / base < m + 1 := Nat.div_lt_self hn (by omega)
  unfold natToDigits
  conv_lhs => rw [show natToDigitsAux base (m + 1) (m + 1) =
    natToDigitsAux base ((m + 1) / base) m ++ [(m + 1) % base] by
      simp [natToDigitsAux, if_neg (by omega : ¬ m + 1 = 0)]]
  rw [natToDigitsAux_fuel_eq base hb ((m + 1) / base) m ((m + 1) / base)
    (by omega) (le_refl _)]

theorem digitsToNat_append_singleton (base d : Nat) (ds : List Nat) :
    digitsToNat base (ds ++ [d]) = digitsToNat base ds * base + d := by
  simp [digitsToNat, List.foldl_append]

theorem digitsToNat_natToDigits (base : Nat) (hb : 2 ≤ base) :
    ∀ n, digitsToNat base (natToDigits base n) = n := by
  intro n
  induction n using Nat.strong_induction_on with
  | _ n ih =>
    rcases Nat.eq_zero_or_pos n with hn | hn
    · subst hn
      rw [natToDigits_zero]
      rfl
    · have hdiv : n / base < n := Nat.div_lt_self hn (by omega)
      rw [natToDigits_succ base n hb hn, digitsToNat_append_singleton,
        ih (n / base) hdiv]
      have h1 := Nat.div_add_mod n base
      have h2 : n / base * base = base * (n / base) := Nat.mul_comm _ _
      omega

theorem natToDigits_head_ne_zero (base : Nat) (hb : 2 ≤ base) :
    ∀ n, 0 < n → ∃ d ds, natToDigits base n = d :: ds ∧ d ≠ 0 := by
  intro n
  induction n using Nat.strong_induction_on with
  | _ n ih =>
    intro hn
    rw [natToDigits_succ base n hb hn]
    rcases Nat.eq_zero_or_pos (n / base) with hdiv | hdiv
    · rw [hdiv, natToDigits_zero, List.nil_append]
      refine ⟨n % base, [], rfl, ?_⟩
      have hlt : n < base := (Nat.div_eq_zero_iff (by omega)).mp hdiv
      rw [Nat.mod_eq_of_lt hlt]
      omega
    · obtain ⟨d, ds, hds, hd⟩ := ih (n / base) (Nat.div_lt_self hn (by omega)) hdiv
      exact ⟨d, ds ++ [n % base], by rw [hds]; simp, hd⟩

theorem natToDigits_all_lt (base : Nat) (hb : 2 ≤ base) :
    ∀ n, ∀ d ∈ natToDigits base n, d < base := by
  intro n
  induction n using Nat.strong_induction_on with
  | _ n ih =>
    intro d hd
    rcases Nat.eq_zero_or_pos n with hn | hn
    · rw [hn, natToDigits_zero] at hd
      cases hd
    · rw [natToDigits_succ base n hb hn] at hd
      rcases List.mem_append.mp hd with h | h
      · exact ih (n / base) (Nat.div_lt_self hn (by omega)) d h
      · rw [List.mem_singleton.mp h]
        exact Nat.mod_lt n (by omega)

theorem digitsToNat_replicate_zero_append (base : Nat) :
    ∀ (N : Nat) (ds : List Nat),
      digitsToNat base (List.replicate N 0 ++ ds) = digitsToNat base ds := by
  intro N
  induction N with
  | zero => intro ds; rfl
  | succ n ih =>
    intro ds
    rw [List.replicate_succ, List.cons_append]
    simpa [digitsToNat, List.foldl_cons] using ih ds

theorem takeWhile_replicate_append {α : Type} (p : α → Bool) (a : α) (hpa : p a = true) :
    ∀ (N : Nat) (l : List α),
      List.takeWhile p (List.replicate N a ++ l) = List.replicate N a ++ List.takeWhile p l := by
  intro N
  induction N with
  | zero => intro l; rfl
  | succ n ih =>
    intro l
    rw [List.replicate_succ, List.cons_append, List.takeWhile_cons_of_pos hpa]
    simp [ih, List.cons_append]

/-! ## The invalid-character scan -/

theorem findInvalidCharAux_none_iff (alpha : List Char) :
    ∀ (chars : List Char) (i0 : Nat),
      findInvalidCharAux alpha chars i0 = none ↔ ∀ c ∈ chars, c ∈ alpha := by
  intro chars
  induction chars with
  | nil => intro i0; simp [findInvalidCharAux]
  | cons c rest ih =>
    intro i0
    by_cases hc : c ∈ alpha
    · simp [findInvalidCharAux, hc, ih (i0 + 1)]
    · simp [findInvalidCharAux, hc]

theorem findInvalidCharAux_some_spec (alpha : List Char) :
    ∀ (chars : List Char) (i0 : Nat) (c : Char) (i : Nat),
      findInvalidCharAux alpha chars i0 = some (c, i) →
      ∃ j, i = i0 + j ∧ chars[j]? = some c ∧ c ∉ alpha ∧
        ∀ k < j, ∀ ck, chars[k]? = some ck → ck ∈ alpha := by
  intro chars
  induction chars with
  | nil => intro i0 c i h; simp [findInvalidCharAux] at h
  | cons c0 rest ih =>
    intro i0 c i h
    by_cases hc : c0 ∈ alpha
    · rw [findInvalidCharAux, if_pos hc] at h
      obtain ⟨j, hj, hget, hnotin, hprev⟩ := ih (i0 + 1) c i h
      refine ⟨j + 1, by omega, by simpa using hget, hnotin, ?_⟩
      intro k hk ck hck
      cases k with
      | zero =>
        simp only [List.getElem?_cons_zero, Option.some.injEq] at hck
        rw [← hck]
        exact hc
      | succ k' =>
        simp only [List.getElem?_cons_succ] at hck
        exact hprev k' (by omega) ck hck
    · rw [findInvalidCharAux, if_neg hc] at h
      simp only [Option.some.injEq, Prod.mk.injEq] at h
      refine ⟨0, by omega, ?_, h.1 ▸ hc, fun k hk => absurd hk (Nat.not_lt_zero k)⟩
      simp [h.1]

theorem baseXEncode_of_valid (alphabet value : String)
    (hfind : findInvalidCharAux alphabet.toList value.toList 0 = none) :
    baseXEncode alphabet value =
      .ok (List.replicate
          ((value.toList.takeWhile fun c => c == alphabet.toList.headD default).length) 0 ++
        natToDigits 256
          (digitsToNat alphabet.toList.length (stringDigits alphabet.toList value.toList))) := by
  simp only [baseXEncode]
  rw [hfind]

/-- C8: base-X encoding fails with the invalid-alphabet-character
condition exactly when the input contains a character outside the
alphabet, and the failure reports the first offending character
together with its position. -/
theorem baseX_invalid_char_iff (alphabet value : String) :
    ((∃ c ∈ value.toList, c ∉ alphabet.toList) ↔
      ∃ c i, baseXEncode alphabet value = .error (.invalidBaseString value c i)) ∧
    (∀ c i, baseXEncode alphabet value = .error (.invalidBaseString value c i) →
      value.toList[i]? = some c ∧ c ∉ alphabet.toList ∧
        ∀ k < i, ∀ ck, value.toList[k]? = some ck → ck ∈ alphabet.toList) ∧
    ((∀ c ∈ value.toList, c ∈ alphabet.toList) → ∃ bs, baseXEncode alphabet value = .ok bs) := by
  cases hfind : findInvalidCharAux alphabet.toList value.toList 0 with
  | none =>
    obtain ⟨bs, hbs⟩ : ∃ bs, baseXEncode alphabet value = .ok bs :=
      ⟨_, baseXEncode_of_valid alphabet value hfind⟩
    have hall : ∀ c ∈ value.toList, c ∈ alphabet.toList :=
      (findInvalidCharAux_none_iff alphabet.toList value.toList 0).mp hfind
    refine ⟨⟨fun h => ?_, fun h => ?_⟩, fun c i heq => ?_, fun _ => ⟨bs, hbs⟩⟩
    · obtain ⟨c, hc, hnot⟩ := h
      exact absurd (hall c hc) hnot
    · obtain ⟨c, i, heq⟩ := h
      rw [hbs] at heq
      cases heq
    · rw [hbs] at heq
      cases heq
  | some p =>
    obtain ⟨c0, i0⟩ := p
    have henc : baseXEncode alphabet value = .error (.invalidBaseString value c0 i0) := by
      simp only [baseXEncode]
      rw [hfind]
    obtain ⟨j, hj, hget, hnotin, hprev⟩ :=
      findInvalidCharAux_some_spec alphabet.toList value.toList 0 c0 i0 hfind
    have hji : j = i0 := by omega
    subst hji
    refine ⟨⟨fun _ => ⟨c0, j, henc⟩, fun _ => ⟨c0, List.getElem?_mem hget, hnotin⟩⟩,
      fun c i heq => ?_, fun hall => absurd (hall c0 (List.getElem?_mem hget)) hnotin⟩
    rw [henc] at heq
    simp only [Except.error.injEq, CodecError.invalidBaseString.injEq] at heq
    obtain ⟨-, hc, hi⟩ := heq
    subst hc
    subst hi
    exact ⟨hget, hnotin, hprev⟩

/-- Witness for `baseX_invalid_char_iff`: the character `0` is outside
the base-58 alphabet and is reported at position 0. -/
theorem baseX_invalid_char_iff_witness :
    (∃ c i, baseXEncode base58Alphabet "0a" = .error (.invalidBaseString "0a" c i)) ∧
    ("0a".toList[0]? = some '0' ∧ '0' ∉ base58Alphabet.toList ∧
      ∀ k < 0, ∀ ck, "0a".toList[k]? = some ck → ck ∈ base58Alphabet.toList) :=
  ⟨(baseX_invalid_char_iff base58Alphabet "0a").1.mp ⟨'0', by decide, by decide⟩,
    (baseX_invalid_char_iff base58Alphabet "0a").2.1 '0' 0 (by rfl)⟩

/-- C7: the base-58 codec encodes the string `heLLo` to the bytes
`0x1b 0x6a 0x30 0x70` and decodes those bytes back to `heLLo`. -/
theorem base58_heLLo_concrete :
    baseXEncode base58Alphabet "heLLo" = .ok [0x1b, 0x6a, 0x30, 0x70] ∧
    baseXDecode base58Alphabet [0x1b, 0x6a, 0x30, 0x70] = "heLLo" :=
  ⟨by rfl, by decide⟩

theorem stringDigits_replicate_head (a : Char) (rest : List Char) (N : Nat) :
    stringDigits (a :: rest) (List.replicate N a) = List.replicate N 0 := by
  simp [stringDigits, List.map_replicate, List.findIdx?_cons]

/-- C1: encoding a string of `N` leading zero-digit characters followed
by a non-zero-valued suffix (the suffix not itself starting with the
zero digit, so that `N` is the whole leading run), then decoding,
reproduces exactly `N` leading zero-digit characters; the encoded bytes
are one `0x00` per leading zero digit followed by the minimal
big-endian bytes of the suffix's value. -/
theorem baseX_leading_zero_preservation (alphabet suffix : String) (N : Nat)
    (hlen2 : 2 ≤ alphabet.toList.length) (hnodup : alphabet.toList.Nodup)
    (hvalid : ∀ c ∈ suffix.toList, c ∈ alphabet.toList)
    (hnonzero : digitsToNat alphabet.toList.length
      (stringDigits alphabet.toList suffix.toList) ≠ 0)
    (hfirst : ∀ c, suffix.toList.head? = some c → c ≠ alphabet.toList.headD default) :
    ∃ bytes,
      baseXEncode alphabet (String.mk (List.replicate N (alphabet.toList.headD default) ++
        suffix.toList)) = .ok bytes ∧
      bytes = List.replicate N 0 ++ natToDigits 256 (digitsToNat alphabet.toList.length
        (stringDigits alphabet.toList suffix.toList)) ∧
      ((baseXDecode alphabet bytes).toList.takeWhile
        (fun c => c == alphabet.toList.headD default)).length = N := by
  obtain ⟨a, arest, halpha⟩ : ∃ a arest, alphabet.toList = a :: arest := by
    cases h : alphabet.toList with
    | nil => rw [h] at hlen2; simp at hlen2
    | cons a arest => exact ⟨a, arest, rfl⟩
  have hz : alphabet.toList.headD default = a := by rw [halpha]; rfl
  have hB2 : 2 ≤ alphabet.toList.length := hlen2
  have hnpos : 0 < digitsToNat alphabet.toList.length
      (stringDigits alphabet.toList suffix.toList) := Nat.pos_of_ne_zero hnonzero
  -- every character of the input string is in the alphabet
  have hvalid_s : ∀ c ∈ List.replicate N (alphabet.toList.headD default) ++ suffix.toList,
      c ∈ alphabet.toList := by
    intro c hc
    rcases List.mem_append.mp hc with h | h
    · rw [List.eq_of_mem_replicate h, hz, halpha]
      exact List.mem_cons_self a arest
    · exact hvalid c h
  have hfind : findInvalidCharAux alphabet.toList
      (String.mk (List.replicate N (alphabet.toList.headD default) ++ suffix.toList)).toList
      0 = none :=
    (findInvalidCharAux_none_iff alphabet.toList _ 0).mpr hvalid_s
  have henc := baseXEncode_of_valid alphabet _ hfind
  -- the leading-zero count of the input is exactly N
  have hsz : suffix.toList.takeWhile
      (fun c => c == alphabet.toList.headD default) = [] := by
    cases hsx : suffix.toList with
    | nil => rfl
    | cons c cs =>
      apply List.takeWhile_cons_of_neg
      simp only [beq_eq_false_iff_ne, ne_eq, Bool.not_eq_true]
      exact hfirst c (by rw [hsx]; rfl)
  have hLZ : (((String.mk (List.replicate N (alphabet.toList.headD default) ++
      suffix.toList)).toList).takeWhile
        (fun c => c == alphabet.toList.headD default)).length = N := by
    show ((List.replicate N (alphabet.toList.headD default) ++
      suffix.toList).takeWhile (fun c => c == alphabet.toList.headD default)).length = N
    rw [takeWhile_replicate_append _ _ (by simp) N suffix.toList, hsz]
    simp
  -- the numeric value of the input equals the value of the suffix
  have hM : digitsToNat alphabet.toList.length
      (stringDigits alphabet.toList
        (String.mk (List.replicate N (alphabet.toList.headD default) ++
          suffix.toList)).toList) =
      digitsToNat alphabet.toList.length (stringDigits alphabet.toList suffix.toList) := by
    show digitsToNat alphabet.toList.length
      (stringDigits alphabet.toList
        (List.replicate N (alphabet.toList.headD default) ++ suffix.toList)) = _
    rw [show stringDigits alphabet.toList
        (List.replicate N (alphabet.toList.headD default) ++ suffix.toList) =
      stringDigits alphabet.toList (List.replicate N (alphabet.toList.headD default)) ++
        stringDigits alphabet.toList suffix.toList from List.map_append _ _ _]
    rw [hz, halpha, stringDigits_replicate_head]
    rw [← halpha]
    exact digitsToNat_replicate_zero_append alphabet.toList.length N _
  rw [hLZ, hM] at henc
  refine ⟨_, henc, rfl, ?_⟩
  -- decode: the byte string starts with exactly N zero bytes
  obtain ⟨d0, ds0, htb, hd0⟩ := natToDigits_head_ne_zero 256 (by omega) _ hnpos
  have htake0 : (List.replicate N 0 ++ natToDigits 256 (digitsToNat alphabet.toList.length
      (stringDigits alphabet.toList suffix.toList))).takeWhile (fun b => b == 0) =
      List.replicate N 0 := by
    rw [takeWhile_replicate_append (fun b => b == 0) 0 (by simp) N, htb,
      List.takeWhile_cons_of_neg (by simp [hd0]), List.append_nil]
  have hdrop : (List.replicate N 0 ++ natToDigits 256 (digitsToNat alphabet.toList.length
      (stringDigits alphabet.toList suffix.toList))).drop N =
      natToDigits 256 (digitsToNat alphabet.toList.length
        (stringDigits alphabet.toList suffix.toList)) :=
    List.drop_left' (List.length_replicate N 0)
  have hrt := digitsToNat_natToDigits 256 (by omega)
    (digitsToNat alphabet.toList.length (stringDigits alphabet.toList suffix.toList))
  have hdec : baseXDecode alphabet (List.replicate N 0 ++
      natToDigits 256 (digitsToNat alphabet.toList.length
        (stringDigits alphabet.toList suffix.toList))) =
      String.mk (List.replicate N (alphabet.toList.headD default) ++
        (natToDigits alphabet.toList.length (digitsToNat alphabet.toList.length
          (stringDigits alphabet.toList suffix.toList))).map
          (fun d => alphabet.toList.getD d (alphabet.toList.headD default))) := by
    simp only [baseXDecode]
    rw [htake0, List.length_replicate, hdrop, hrt]
  rw [hdec]
  -- the decoded digit string starts with a non-zero digit
  obtain ⟨e0, es0, hdig, he0⟩ := natToDigits_head_ne_zero alphabet.toList.length hB2 _ hnpos
  have he0B : e0 < alphabet.toList.length :=
    natToDigits_all_lt alphabet.toList.length hB2 _ e0 (by rw [hdig]; exact List.mem_cons_self _ _)
  have hheadchar : alphabet.toList.getD e0 (alphabet.toList.headD default) ≠
      alphabet.toList.headD default := by
    rw [List.getD_eq_getElem?_getD, List.getElem?_eq_getElem he0B, Option.getD_some, hz]
    intro hcontra
    have h0lt : 0 < alphabet.toList.length := by omega
    have ha0 : alphabet.toList[0] = a := by
      rw [List.getElem_eq_iff, halpha]
      simp
    have hee : alphabet.toList[e0] = alphabet.toList[0] := by rw [hcontra, ha0]
    exact he0 (hnodup.getElem_inj_iff.mp hee)
  show ((List.replicate N (alphabet.toList.headD default) ++
    (natToDigits alphabet.toList.length _).map _).takeWhile
      (fun c => c == alphabet.toList.headD default)).length = N
  rw [hdig, List.map_cons,
    takeWhile_replicate_append _ _ (by simp) N,
    List.takeWhile_cons_of_neg
      (by simp only [Bool.not_eq_true, beq_eq_false_iff_ne]; exact hheadchar)]
  simp

/-- Witness for `baseX_leading_zero_preservation`: the base-58 string
`112` (two leading zero digits, then the digit `2` of value one). -/
theorem baseX_leading_zero_preservation_witness :
    ∃ bytes,
      baseXEncode base58Alphabet (String.mk (List.replicate 2
        (base58Alphabet.toList.headD default) ++ "2".toList)) = .ok bytes ∧
      bytes = List.replicate 2 0 ++ natToDigits 256 (digitsToNat base58Alphabet.toList.length
        (stringDigits base58Alphabet.toList "2".toList)) ∧
      ((baseXDecode base58Alphabet bytes).toList.takeWhile
        (fun c => c == base58Alphabet.toList.headD default)).length = 2 :=
  baseX_leading_zero_preservation base58Alphabet "2" 2 (by decide) (by decide)
    (by decide) (by decide)
    (fun c hc => by
      have hc2 : c = '2' := by simpa using hc.symm
      subst hc2
      decide)
